import Mathlib

/-! Multi-key CKKS helpers and distributed decryption.

A verification development for `mkckks/utils.go` (`Dot`, `DotLvl`, `MergeSlices`,
`Contains`) and `mkrlwe/decryptor.go` (`PartDec`, `MergeDec`).

Slices of `uint64` are lists of naturals: the code only compares and copies the
values, so no arithmetic on them can overflow.  A Go panic is the value `none`
(or, for `Dot`, a `DotResult.panicked` carrying the accumulator as the panic
left it).
-/

namespace Lattigo

/-! ## `mkckks/utils.go`: `Contains` and `MergeSlices` -/

/-- The loop of `Contains` (`for i, el := range s`), started at index `i`: the index of the
first element equal to `e`, or `-1` when the range is exhausted. -/
def ContainsFrom (i : Nat) : List Nat → Nat → Int
  | [], _ => -1
  | el :: rest, e => if el = e then (i : Int) else ContainsFrom (i + 1) rest e

/-- `Contains` returns the element's index if the element is in the slice, `-1` otherwise. -/
def Contains (s : List Nat) (e : Nat) : Int :=
  ContainsFrom 0 s e

/-- The call `sort.Slice(s3, func(i, j int) bool { return s3[i] < s3[j] })` of the Go standard
library: the slice is rearranged into ascending order. -/
def sortSlice (s : List Nat) : List Nat :=
  s.insertionSort (fun a b => a ≤ b)

/-- One iteration of the loop of `MergeSlices`: `el` is appended to `s3` when `Contains`
does not find it there. -/
def mergeStep (s3 : List Nat) (el : Nat) : List Nat :=
  if Contains s3 el < 0 then s3 ++ [el] else s3

/-- `MergeSlices` copies `s1` into `s3`, appends the elements of `s2` that `s3` does not
contain yet, and sorts `s3`. -/
def MergeSlices (s1 s2 : List Nat) : List Nat :=
  sortSlice (s2.foldl mergeStep s1)

/-! ## The ring engine (`package ring`)

The polynomial-ring library is not among the sources; its operations are modelled from the
specification (§2, §4.5 and §6), which treats it as an external engine exposing level-aware
operations on ring elements whose buffers are "per-modulus coefficient rows addressable up
to a given level".  An operation that addresses a row or a coefficient an operand does not
have aborts (`none`), as an out-of-range index does in Go.  A level is a `uint64`: an
operation at a level runs over the rows `0 .. level`, `rowsLvl level` of them. -/

/-- Modelled from the spec: the type `ring.Poly` is not among the sources.  A ring element
is a buffer of coefficient rows, one row per modulus of the chain it is stored for
(`Coeffs [][]uint64`). -/
structure Poly where
  Coeffs : List (List Nat)
deriving DecidableEq, Repr

/-- Modelled from the spec: the type `ring.Ring` is not among the sources.  A ring has a
degree `N`, a modulus chain `Modulus` indexable by level, and the tables of its transform:
`NTT i` is the transform of a row of `N` coefficients modulo the `i`-th modulus.  The chain
is a Go slice: its length is below `2^64`. -/
structure Ring where
  N : Nat
  Modulus : List Nat
  NTT : Nat → List Nat → List Nat
  Modulus_len : Modulus.length < 2 ^ 64

/-- The row count `level+1` of an operation at a level, as the source computes it: `level`
is a `uint64`, so the sum wraps around at `2^64`. -/
def rowsLvl (level : Nat) : Nat :=
  (level + 1) % 2 ^ 64

/-- The `i`-th modulus of the chain. -/
def Ring.modulus (r : Ring) (i : Nat) : Nat :=
  r.Modulus.getD i 0

/-- Coefficient `j` of row `i` of a polynomial (`p.Coeffs[i][j]`). -/
def Poly.coeff (p : Poly) (i j : Nat) : Nat :=
  (p.Coeffs.getD i []).getD j 0

/-- Whether the rows `0 .. n-1` of `p` exist and hold at least `N` coefficients each: the
rows and coefficients an operation over `n` moduli addresses. -/
def Poly.hasRows (N n : Nat) (p : Poly) : Bool :=
  decide (n ≤ p.Coeffs.length) && (p.Coeffs.take n).all (fun row => decide (N ≤ row.length))

/-- Overwrite coefficient `j < N` of row `i < n` of `p` with `f i j`; every other
coefficient and row of `p` stays as it is. -/
def Poly.setRows (N n : Nat) (p : Poly) (f : Nat → Nat → Nat) : Poly :=
  ⟨(List.range n).map (fun i => (List.range N).map (f i) ++ (p.Coeffs.getD i []).drop N)
    ++ p.Coeffs.drop n⟩

/-- The reslicing `p.Coeffs = p.Coeffs[:n]`: the first `n` rows are kept; it panics when `p`
has fewer than `n` rows. -/
def Poly.truncate (n : Nat) (p : Poly) : Option Poly :=
  if n ≤ p.Coeffs.length then some ⟨p.Coeffs.take n⟩ else none

/-- Modelled from the spec: `Ring.NewPoly` is not among the sources.  A fresh ring element:
one row of `N` zero coefficients per modulus of the chain. -/
def Ring.NewPoly (r : Ring) : Poly :=
  ⟨List.replicate r.Modulus.length (List.replicate r.N 0)⟩

/-- Modelled from the spec: `Ring.CopyLvl` is not among the sources (§6 `copy[Lvl]`).  It
copies the coefficients of `p1` onto `p2` on the rows `0 .. level`. -/
def Ring.CopyLvl (r : Ring) (level : Nat) (p1 p2 : Poly) : Option Poly :=
  if p1.hasRows r.N (rowsLvl level) && p2.hasRows r.N (rowsLvl level) then
    some (p2.setRows r.N (rowsLvl level) (fun i j => p1.coeff i j))
  else none

/-- Modelled from the spec: `Ring.AddLvl` is not among the sources (§6 `add`, §4.5 "ring
addition at the given level").  On each row `0 .. level` it writes onto `p3` the
coefficient-wise sum of `p1` and `p2` modulo the row's modulus. -/
def Ring.AddLvl (r : Ring) (level : Nat) (p1 p2 p3 : Poly) : Option Poly :=
  if decide (rowsLvl level ≤ r.Modulus.length) && p1.hasRows r.N (rowsLvl level)
      && p2.hasRows r.N (rowsLvl level) && p3.hasRows r.N (rowsLvl level) then
    some (p3.setRows r.N (rowsLvl level) (fun i j => (p1.coeff i j + p2.coeff i j) % r.modulus i))
  else none

/-- Modelled from the spec: `Ring.ReduceLvl` is not among the sources (§6 `reduce[Lvl]`,
§4.5 "one modular reduction pass").  On each row `0 .. level` it writes onto `p2` the
coefficients of `p1` reduced modulo the row's modulus. -/
def Ring.ReduceLvl (r : Ring) (level : Nat) (p1 p2 : Poly) : Option Poly :=
  if decide (rowsLvl level ≤ r.Modulus.length) && p1.hasRows r.N (rowsLvl level)
      && p2.hasRows r.N (rowsLvl level) then
    some (p2.setRows r.N (rowsLvl level) (fun i j => p1.coeff i j % r.modulus i))
  else none

/-- Modelled from the spec: the multiply-and-add of the engine (§6
`mulCoeffsMontgomeryAndAdd[Lvl]`) is not among the sources.  Over the first `n` moduli it
adds to `p3` the product of `p1` and `p2`, the product of two ring elements in the
Montgomery-NTT domain being coefficient-wise. -/
def Ring.mulAddRows (r : Ring) (n : Nat) (p1 p2 p3 : Poly) : Option Poly :=
  if decide (n ≤ r.Modulus.length) && p1.hasRows r.N n && p2.hasRows r.N n
      && p3.hasRows r.N n then
    some (p3.setRows r.N n
      (fun i j => (p3.coeff i j + p1.coeff i j * p2.coeff i j) % r.modulus i))
  else none

/-- Modelled from the spec: `Ring.MulCoeffsMontgomeryAndAddLvl` is not among the sources
(§6 `mulCoeffsMontgomeryAndAdd[Lvl]`).  On each row `0 .. level` it adds to `p3` the
product of `p1` and `p2` modulo the row's modulus. -/
def Ring.MulCoeffsMontgomeryAndAddLvl (r : Ring) (level : Nat) (p1 p2 p3 : Poly) :
    Option Poly :=
  r.mulAddRows (rowsLvl level) p1 p2 p3

/-- Modelled from the spec: `Ring.MulCoeffsMontgomeryAndAdd` is not among the sources
(§6 `mulCoeffsMontgomeryAndAdd[Lvl]`).  On every row of the modulus chain it adds to `p3`
the product of `p1` and `p2` modulo the row's modulus. -/
def Ring.MulCoeffsMontgomeryAndAdd (r : Ring) (p1 p2 p3 : Poly) : Option Poly :=
  r.mulAddRows r.Modulus.length p1 p2 p3

/-- Modelled from the spec: `Ring.NTTLvl` is not among the sources (§6 `NTT[Lvl]`).  On each
row `0 .. level` it writes onto `p2` the transform of the `N` coefficients of the row of
`p1`. -/
def Ring.NTTLvl (r : Ring) (level : Nat) (p1 p2 : Poly) : Option Poly :=
  if decide (rowsLvl level ≤ r.Modulus.length) && p1.hasRows r.N (rowsLvl level)
      && p2.hasRows r.N (rowsLvl level) then
    some (p2.setRows r.N (rowsLvl level)
      (fun i j => (r.NTT i ((p1.Coeffs.getD i []).take r.N)).getD j 0))
  else none

/-- Modelled from the spec: `ring.GaussianSampler` is not among the sources (§6 "a Gaussian
sampler ... producing ring elements at a given level").  `sample j` is the integer the
sampler draws for coefficient `j` on its next read. -/
structure GaussianSampler where
  baseRing : Ring
  sample : Nat → Int

/-- Modelled from the spec: `GaussianSampler.ReadLvlNew` is not among the sources.  It
returns a new ring element at the given level, of `level + 1` rows: coefficient `j` of row
`i` is the residue of the drawn integer `sample j` modulo the `i`-th modulus. -/
def GaussianSampler.ReadLvlNew (s : GaussianSampler) (level : Nat) : Option Poly :=
  if rowsLvl level ≤ s.baseRing.Modulus.length then
    some ⟨(List.range (rowsLvl level)).map (fun i =>
      (List.range s.baseRing.N).map (fun j => (s.sample j % (s.baseRing.modulus i : Int)).toNat))⟩
  else none

/-! ## `mkckks/utils.go`: `Dot` and `DotLvl` -/

/-- Modelled from the spec: the type `MKDecomposedPoly` is declared outside the sources; it
is a sequence of ring elements, one per gadget digit (field `poly`). -/
structure MKDecomposedPoly where
  poly : List Poly
deriving DecidableEq, Repr

/-- How a call of `Dot` or `DotLvl` ends: it returns (`ok`) or panics (`panicked`); either
way `res` is the accumulator the caller passed, as the call left it. -/
inductive DotResult where
  | ok (res : Poly)
  | panicked (res : Poly)
deriving DecidableEq, Repr

/-- Whether the call panicked. -/
def DotResult.failed : DotResult → Bool
  | .ok _ => false
  | .panicked _ => true

/-- The accumulator after the call. -/
def DotResult.res : DotResult → Poly
  | .ok res => res
  | .panicked res => res

/-- The loop `for l := 0; l < len(p1.poly); l++ { step(p1.poly[l], p2.poly[l], res) }`, over
the index-aligned pairs of digits; a step of the engine that aborts ends the call with the
accumulator of the steps done so far. -/
def dotLoop (step : Poly → Poly → Poly → Option Poly) : List (Poly × Poly) → Poly → DotResult
  | [], res => DotResult.ok res
  | (a, b) :: rest, res =>
    match step a b res with
    | none => DotResult.panicked res
    | some res1 => dotLoop step rest res1

/-- `Dot` computes the dot product of two decomposed polynomials, accumulating
`p1.poly[l] * p2.poly[l]` into `res`; it panics at once when the lengths differ. -/
def Dot (p1 p2 : MKDecomposedPoly) (res : Poly) (r : Ring) : DotResult :=
  if p1.poly.length ≠ p2.poly.length then DotResult.panicked res
  else dotLoop r.MulCoeffsMontgomeryAndAdd (p1.poly.zip p2.poly) res

/-- `DotLvl` is `Dot` on the rows `0 .. level` only. -/
def DotLvl (level : Nat) (p1 p2 : MKDecomposedPoly) (res : Poly) (r : Ring) : DotResult :=
  if p1.poly.length ≠ p2.poly.length then DotResult.panicked res
  else dotLoop (r.MulCoeffsMontgomeryAndAddLvl level) (p1.poly.zip p2.poly) res

/-- The dot product the documentation of `Dot` names, coefficient `j` of row `i`: the ring
sum over the digits `l` of `p1[l] * p2[l]`. -/
def dotProductCoeff (r : Ring) (p1 p2 : MKDecomposedPoly) (i j : Nat) : Nat :=
  ((p1.poly.zip p2.poly).map (fun ab => ab.1.coeff i j * ab.2.coeff i j)).sum % r.modulus i

/-! ## `mkrlwe/decryptor.go` -/

/-- Modelled from the spec: the type `rlwe.SecretKey` is not among the sources; a secret key
is one ring element (field `Value`). -/
structure SecretKey where
  Value : Poly
deriving DecidableEq, Repr

/-- Modelled from the spec: the type `MKSecretKey` is declared outside the sources; it pairs
a secret key with the identifier of its owner. -/
structure MKSecretKey where
  Key : SecretKey
  PeerID : Nat
deriving DecidableEq, Repr

/-- The decryptor: the ring of the ciphertext modulus chain and the sampler of the smudging
noise (the scheme parameters it also stores are not read by `PartDec` and `MergeDec`). -/
structure mkDecryptor where
  ringQ : Ring
  samplerGaussian : GaussianSampler

/-- `NewMKDecryptor` builds the decryptor: `ringQ` is the ring of the parameters, and the
Gaussian sampler is created over that same ring; `sample` stands for what its generator
draws. -/
def NewMKDecryptor (ringQ : Ring) (sample : Nat → Int) : mkDecryptor :=
  { ringQ := ringQ, samplerGaussian := { baseRing := ringQ, sample := sample } }

/-- `PartDec` computes a partial decryption share `ct * sk + e`: the smudging noise is
sampled at the level, moved to the transform domain, the product `ct * sk` is added to it,
and the result is resliced to `level + 1` rows.  A nil `ct` panics. -/
def mkDecryptor.PartDec (dec : mkDecryptor) (ct : Option Poly) (level : Nat)
    (sk : MKSecretKey) : Option Poly :=
  match ct with
  | none => none
  | some ct => do
    let out ← dec.samplerGaussian.ReadLvlNew level
    let out ← dec.ringQ.NTTLvl level out out
    let out ← dec.ringQ.MulCoeffsMontgomeryAndAddLvl level ct sk.Key.Value out
    out.truncate (rowsLvl level)

/-- `MergeDec` merges the partial decryption shares: `c0` is copied at the level into a new
polynomial, every share is added to it, the sum is reduced and resliced to `level + 1`
rows.  A nil `c0` panics. -/
def mkDecryptor.MergeDec (dec : mkDecryptor) (c0 : Option Poly) (level : Nat)
    (partialKeys : List Poly) : Option Poly :=
  match c0 with
  | none => none
  | some c0 => do
    let res := dec.ringQ.NewPoly
    let res ← dec.ringQ.CopyLvl level c0 res
    let res ← partialKeys.foldlM (fun res k => dec.ringQ.AddLvl level res k res) res
    let res ← dec.ringQ.ReduceLvl level res res
    res.truncate (rowsLvl level)

/-! ## `mkrlwe/decryptor.go` over a memory of polynomials

`PartDec` and `MergeDec` take and return pointers (`*ring.Poly`), and the engine writes
through the pointer of its last operand.  To state what a call leaves untouched, the
polynomials live in a memory and the operands are addresses; a new polynomial gets the next
free address. -/

/-- The polynomials allocated so far; the address of a polynomial is its position. -/
abbrev Memory := List Poly

/-- The polynomial at an address (a polynomial without rows when nothing is allocated
there). -/
def Memory.get (mem : Memory) (a : Nat) : Poly :=
  mem.getD a ⟨[]⟩

/-- An operation of the engine on the polynomial at `dst`, which it overwrites. -/
def Memory.run1 (mem : Memory) (op : Poly → Option Poly) (dst : Nat) : Option Memory := do
  let p ← mem[dst]?
  let out ← op p
  some (mem.set dst out)

/-- An operation of the engine that reads the polynomial at `p1` and writes the one at
`dst`. -/
def Memory.run2 (mem : Memory) (op : Poly → Poly → Option Poly) (p1 dst : Nat) :
    Option Memory := do
  let a ← mem[p1]?
  let p ← mem[dst]?
  let out ← op a p
  some (mem.set dst out)

/-- An operation of the engine that reads the polynomials at `p1` and `p2` and writes the
one at `dst`. -/
def Memory.run3 (mem : Memory) (op : Poly → Poly → Poly → Option Poly) (p1 p2 dst : Nat) :
    Option Memory := do
  let a ← mem[p1]?
  let b ← mem[p2]?
  let p ← mem[dst]?
  let out ← op a b p
  some (mem.set dst out)

/-- `PartDec` on operands in memory: `ct` is a pointer (nil is `none`), `skValue` the
address of `sk.Key.Value`.  The sampled noise is a new polynomial `out`; the transform, the
multiply-and-add and the reslicing all write `out`, whose address is returned with the
memory after the call. -/
def mkDecryptor.PartDecMem (dec : mkDecryptor) (mem : Memory) (ct : Option Nat) (level : Nat)
    (skValue : Nat) : Option (Memory × Nat) :=
  match ct with
  | none => none
  | some ct => do
    let noise ← dec.samplerGaussian.ReadLvlNew level
    let out := mem.length
    let mem := mem ++ [noise]
    let mem ← mem.run2 (dec.ringQ.NTTLvl level) out out
    let mem ← mem.run3 (dec.ringQ.MulCoeffsMontgomeryAndAddLvl level) ct skValue out
    let mem ← mem.run1 (Poly.truncate (rowsLvl level)) out
    some (mem, out)

/-- `MergeDec` on operands in memory: `c0` is a pointer (nil is `none`), `partialKeys` the
addresses of the shares.  `res` is a new polynomial; the copy, every addition, the reduction
and the reslicing all write `res`, whose address is returned with the memory after the
call. -/
def mkDecryptor.MergeDecMem (dec : mkDecryptor) (mem : Memory) (c0 : Option Nat) (level : Nat)
    (partialKeys : List Nat) : Option (Memory × Nat) :=
  match c0 with
  | none => none
  | some c0 => do
    let res := mem.length
    let mem := mem ++ [dec.ringQ.NewPoly]
    let mem ← mem.run2 (dec.ringQ.CopyLvl level) c0 res
    let mem ← partialKeys.foldlM
      (fun mem k => mem.run3 (dec.ringQ.AddLvl level) res k res) mem
    let mem ← mem.run2 (dec.ringQ.ReduceLvl level) res res
    let mem ← mem.run1 (Poly.truncate (rowsLvl level)) res
    some (mem, res)

/-! ## Sample values

A small ring (degree 2, modulus chain `[5, 7]`, the transform taken to reverse a row) and
operands over it, at which the theorems below are instantiated. -/

/-- A ring of degree 2 over the modulus chain `[5, 7]`. -/
def sampleRing : Ring :=
  { N := 2, Modulus := [5, 7], NTT := fun _ row => row.reverse, Modulus_len := by decide }

/-- A draw of the sampler: `-1` for coefficient 0 and `2` for the others. -/
def sampleNoise : Nat → Int :=
  fun j => if j = 0 then -1 else 2

/-- A decryptor over `sampleRing`. -/
def sampleDec : mkDecryptor :=
  NewMKDecryptor sampleRing sampleNoise

/-- A ciphertext term over `sampleRing`. -/
def sampleCt : Poly := ⟨[[1, 2], [3, 4]]⟩

/-- A secret key over `sampleRing`. -/
def sampleSk : MKSecretKey := ⟨⟨⟨[[2, 3], [4, 5]]⟩⟩, 0⟩

/-- A constant term over `sampleRing`, not reduced on row 0. -/
def sampleC0 : Poly := ⟨[[9, 2], [3, 4]]⟩

/-- A first share over `sampleRing`. -/
def sampleShareA : Poly := ⟨[[1, 2], [3, 4]]⟩

/-- A second share over `sampleRing`. -/
def sampleShareB : Poly := ⟨[[1, 1], [1, 6]]⟩

/-- A decomposed polynomial of two digits over `sampleRing`. -/
def sampleDecompA : MKDecomposedPoly := ⟨[⟨[[1, 2], [3, 4]]⟩, ⟨[[2, 0], [1, 1]]⟩]⟩

/-- Another decomposed polynomial of two digits over `sampleRing`. -/
def sampleDecompB : MKDecomposedPoly := ⟨[⟨[[3, 1], [0, 2]]⟩, ⟨[[4, 4], [5, 6]]⟩]⟩

/-- A decomposed polynomial of one digit over `sampleRing`. -/
def sampleDecompC : MKDecomposedPoly := ⟨[⟨[[3, 1], [0, 2]]⟩]⟩

/-- An accumulator over `sampleRing` that is not zero. -/
def sampleAcc : Poly := ⟨[[1, 1], [1, 1]]⟩

/-- A memory holding, by address, the sample ciphertext term (0), secret key (1), constant
term (2) and the two shares (3 and 4). -/
def sampleMem : Memory :=
  [sampleCt, sampleSk.Key.Value, sampleC0, sampleShareA, sampleShareB]

/-- A row of 16 coefficients: the given ones followed by zeros. -/
def padRow (l : List Nat) : List Nat :=
  l ++ List.replicate (16 - l.length) 0

/-- A ring of degree 16 over the modulus chain `[257, 641]` (the transform is not run at
the values below and is left as the identity). -/
def sampleRing16 : Ring :=
  { N := 16, Modulus := [257, 641], NTT := fun _ row => row, Modulus_len := by decide }

/-- A decomposed polynomial of two digits over `sampleRing16`. -/
def sampleDigits16A : MKDecomposedPoly :=
  ⟨[⟨[padRow [1, 2], padRow [3, 4]]⟩, ⟨[padRow [2, 0], padRow [1, 1]]⟩]⟩

/-- Another decomposed polynomial of two digits over `sampleRing16`. -/
def sampleDigits16B : MKDecomposedPoly :=
  ⟨[⟨[padRow [3, 1], padRow [0, 2]]⟩, ⟨[padRow [4, 4], padRow [5, 6]]⟩]⟩

/-- Two digits, the second of which is a polynomial without rows. -/
def sampleDigits16Short : MKDecomposedPoly :=
  ⟨[⟨[padRow [1, 2], padRow [3, 4]]⟩, ⟨[]⟩]⟩

/-- An accumulator over `sampleRing16` that is not zero. -/
def sampleAcc16 : Poly := ⟨[padRow [1, 1], padRow [1, 1]]⟩

/-- The largest level a `uint64` holds, `2^64 - 1`. -/
def maxLevel : Nat := 18446744073709551615

/-! ## Theorems -/

/-! ### `Contains` -/

theorem ContainsFrom_nonneg_or (i : Nat) (s : List Nat) (e : Nat) :
    ContainsFrom i s e = -1 ∨ (i : Int) ≤ ContainsFrom i s e := by
  induction s generalizing i with
  | nil => left; rfl
  | cons el rest ih =>
    unfold ContainsFrom
    split
    · right; exact le_refl _
    · rcases ih (i + 1) with h | h
      · left; exact h
      · right; push_cast at h; omega

theorem ContainsFrom_eq_neg_one_iff (i : Nat) (s : List Nat) (e : Nat) :
    ContainsFrom i s e = -1 ↔ e ∉ s := by
  induction s generalizing i with
  | nil => simp [ContainsFrom]
  | cons el rest ih =>
    unfold ContainsFrom
    by_cases h : el = e
    · subst h
      simp only [if_true, List.mem_cons, true_or, not_true_eq_false, iff_false]
      omega
    · have h' : ¬ e = el := fun h'' => h h''.symm
      simp only [h, if_false, List.mem_cons, h', false_or]
      exact ih (i + 1)

theorem ContainsFrom_spec (i : Nat) (s : List Nat) (e : Nat) (he : e ∈ s) :
    ∃ k : Nat, ContainsFrom i s e = ((i + k : Nat) : Int) ∧ k < s.length ∧ s[k]? = some e ∧
      ∀ j, j < k → s[j]? ≠ some e := by
  induction s generalizing i with
  | nil => simp at he
  | cons el rest ih =>
    unfold ContainsFrom
    by_cases h : el = e
    · subst h
      exact ⟨0, by simp, by simp, by simp, by intro j hj; omega⟩
    · have hr : e ∈ rest := by
        rcases List.mem_cons.mp he with h1 | h1
        · exact absurd h1.symm h
        · exact h1
      obtain ⟨k, hk1, hk2, hk3, hk4⟩ := ih (i + 1) hr
      refine ⟨k + 1, ?_, by simp; omega, by simpa using hk3, ?_⟩
      · simp only [h, if_false, hk1]
        congr 1
        omega
      · intro j hj
        cases j with
        | zero => simp [h]
        | succ j => simpa using hk4 j (by omega)

theorem Contains_neg_iff (s : List Nat) (e : Nat) : Contains s e < 0 ↔ e ∉ s := by
  unfold Contains
  rw [← ContainsFrom_eq_neg_one_iff 0 s e]
  rcases ContainsFrom_nonneg_or 0 s e with h | h
  · simp [h]
  · constructor
    · intro h'; push_cast at h; omega
    · intro h'; rw [h']; decide

/-- C8: `Contains s e` is `-1` exactly when `e` does not occur in `s`; when `e` occurs, the
result is an index `i` with `0 ≤ i < len(s)` and `s[i] = e`, and no earlier position holds
`e` (it is the first occurrence). -/
theorem Contains_first_index (s : List Nat) (e : Nat) :
    (Contains s e = -1 ↔ e ∉ s) ∧
    (e ∈ s → ∃ i : Nat, Contains s e = (i : Int) ∧ i < s.length ∧ s[i]? = some e ∧
      ∀ j, j < i → s[j]? ≠ some e) := by
  refine ⟨ContainsFrom_eq_neg_one_iff 0 s e, fun he => ?_⟩
  obtain ⟨k, hk1, hk2, hk3, hk4⟩ := ContainsFrom_spec 0 s e he
  exact ⟨k, by simpa [Contains] using hk1, hk2, hk3, hk4⟩

/-! ### `MergeSlices` -/

theorem mergeStep_eq (s3 : List Nat) (el : Nat) :
    mergeStep s3 el = if el ∈ s3 then s3 else s3 ++ [el] := by
  unfold mergeStep
  by_cases h : el ∈ s3
  · have : ¬ Contains s3 el < 0 := fun hc => (Contains_neg_iff s3 el).mp hc h
    simp [h, this]
  · have : Contains s3 el < 0 := (Contains_neg_iff s3 el).mpr h
    simp [h, this]

theorem mem_foldl_mergeStep (s2 s1 : List Nat) (x : Nat) :
    x ∈ s2.foldl mergeStep s1 ↔ x ∈ s1 ∨ x ∈ s2 := by
  induction s2 generalizing s1 with
  | nil => simp
  | cons el rest ih =>
    rw [List.foldl_cons, ih, mergeStep_eq]
    by_cases h : el ∈ s1
    · simp only [h, if_true, List.mem_cons]
      constructor
      · rintro (h1 | h1)
        · exact Or.inl h1
        · exact Or.inr (Or.inr h1)
      · rintro (h1 | h1 | h1)
        · exact Or.inl h1
        · exact Or.inl (h1 ▸ h)
        · exact Or.inr h1
    · simp only [h, if_false, List.mem_append, List.mem_singleton, List.mem_cons]
      tauto

theorem nodup_foldl_mergeStep (s2 s1 : List Nat) (h : s1.Nodup) :
    (s2.foldl mergeStep s1).Nodup := by
  induction s2 generalizing s1 with
  | nil => simpa using h
  | cons el rest ih =>
    rw [List.foldl_cons]
    apply ih
    rw [mergeStep_eq]
    by_cases hm : el ∈ s1
    · simpa [hm] using h
    · simp only [hm, if_false]
      rw [List.nodup_append]
      refine ⟨h, List.nodup_singleton el, ?_⟩
      intro a ha hb
      rw [List.mem_singleton] at hb
      exact hm (hb ▸ ha)

theorem sortSlice_perm (s : List Nat) : (sortSlice s).Perm s :=
  List.perm_insertionSort _ s

theorem sortSlice_sorted (s : List Nat) : (sortSlice s).Sorted (fun a b => a ≤ b) :=
  List.sorted_insertionSort _ s

/-- C1: a value occurs in `MergeSlices s1 s2` exactly when it occurs in `s1` or in `s2`. -/
theorem MergeSlices_mem_iff (s1 s2 : List Nat) (x : Nat) :
    x ∈ MergeSlices s1 s2 ↔ x ∈ s1 ∨ x ∈ s2 := by
  unfold MergeSlices
  rw [(sortSlice_perm _).mem_iff, mem_foldl_mergeStep]

/-- C2: the slice returned by `MergeSlices s1 s2` is in ascending order, each element being
less than or equal to the one after it, whatever the order of the inputs. -/
theorem MergeSlices_sorted (s1 s2 : List Nat) :
    (MergeSlices s1 s2).Chain' (fun a b => a ≤ b) ∧
    (MergeSlices s1 s2).Pairwise (fun a b => a ≤ b) := by
  unfold MergeSlices
  exact ⟨(sortSlice_sorted _).chain', sortSlice_sorted _⟩

/-- C3, as the claim states it, fails: a repeated element of `s1` is copied into the result,
`MergeSlices [1, 1] [] = [1, 1]`, which is not strictly increasing. -/
theorem MergeSlices_dup_counterexample :
    MergeSlices [1, 1] [] = [1, 1] ∧ ¬ (MergeSlices [1, 1] []).Nodup ∧
      ¬ (MergeSlices [1, 1] []).Chain' (fun a b => a < b) := by
  have h : MergeSlices [1, 1] [] = [1, 1] := by decide
  rw [h]
  exact ⟨rfl, by decide, by simp⟩

/-- C3, amended: when `s1` has no repeated element, `MergeSlices s1 s2` is strictly
increasing (hence duplicate-free), whatever `s2` holds. -/
theorem MergeSlices_strict_of_nodup (s1 s2 : List Nat) (h : s1.Nodup) :
    (MergeSlices s1 s2).Chain' (fun a b => a < b) ∧ (MergeSlices s1 s2).Nodup := by
  unfold MergeSlices
  have hnd : (sortSlice (s2.foldl mergeStep s1)).Nodup :=
    (sortSlice_perm _).nodup_iff.mpr (nodup_foldl_mergeStep s2 s1 h)
  refine ⟨?_, hnd⟩
  have hs := sortSlice_sorted (s2.foldl mergeStep s1)
  have hlt : (sortSlice (s2.foldl mergeStep s1)).Sorted (fun a b => a < b) := by
    have h1 : List.Pairwise (fun a b => a ≤ b) (sortSlice (s2.foldl mergeStep s1)) := hs
    have h2 : List.Pairwise (fun a b => a ≠ b) (sortSlice (s2.foldl mergeStep s1)) := hnd
    exact (h1.and h2).imp (fun hab => lt_of_le_of_ne hab.1 hab.2)
  exact hlt.chain'

/-- The sample sets of `Test_Utils`: `{0,2,1}` and `{3,7,12,1,0}` merge to `{0,1,2,3,7,12}`. -/
theorem MergeSlices_strict_of_nodup_witness :
    [0, 2, 1].Nodup ∧ MergeSlices [0, 2, 1] [3, 7, 12, 1, 0] = [0, 1, 2, 3, 7, 12] ∧
      (MergeSlices [0, 2, 1] [3, 7, 12, 1, 0]).Chain' (fun a b => a < b) :=
  ⟨by decide, by decide, (MergeSlices_strict_of_nodup [0, 2, 1] [3, 7, 12, 1, 0] (by decide)).1⟩

/-! ### The ring engine -/

theorem coeff_setRows (N n : Nat) (p : Poly) (f : Nat → Nat → Nat) (i j : Nat)
    (hi : i < n) (hj : j < N) : (p.setRows N n f).coeff i j = f i j := by
  unfold Poly.coeff Poly.setRows
  simp only [List.getD_eq_getElem?_getD]
  rw [List.getElem?_append_left (by simpa using hi)]
  rw [List.getElem?_map, List.getElem?_range hi]
  simp only [Option.map_some', Option.getD_some]
  rw [List.getElem?_append_left (by simpa using hj)]
  rw [List.getElem?_map, List.getElem?_range hj]
  simp

theorem setRows_congr (N n : Nat) (p : Poly) (f g : Nat → Nat → Nat)
    (h : ∀ i, i < n → ∀ j, j < N → f i j = g i j) : p.setRows N n f = p.setRows N n g := by
  unfold Poly.setRows
  congr 2
  apply List.map_congr_left
  intro i hi
  congr 1
  apply List.map_congr_left
  intro j hj
  exact h i (List.mem_range.mp hi) j (List.mem_range.mp hj)

theorem setRows_setRows (N n : Nat) (p : Poly) (f g : Nat → Nat → Nat) :
    (p.setRows N n f).setRows N n g = p.setRows N n g := by
  unfold Poly.setRows
  simp only [Poly.mk.injEq]
  congr 1
  · apply List.map_congr_left
    intro i hi
    have hi' : i < n := List.mem_range.mp hi
    congr 1
    simp only [List.getD_eq_getElem?_getD]
    rw [List.getElem?_append_left (by simpa using hi')]
    rw [List.getElem?_map, List.getElem?_range hi']
    simp only [Option.map_some', Option.getD_some]
    rw [List.drop_append_of_le_length (by simp)]
    rw [List.drop_of_length_le (by simp)]
    simp
  · rw [List.drop_append_of_le_length (by simp)]
    rw [List.drop_of_length_le (by simp)]
    simp

theorem hasRows_setRows (N n : Nat) (p : Poly) (f : Nat → Nat → Nat) :
    (p.setRows N n f).hasRows N n = true := by
  unfold Poly.hasRows Poly.setRows
  simp only [Bool.and_eq_true, decide_eq_true_eq, List.all_eq_true]
  constructor
  · simp
  · intro row hrow
    rw [List.take_append_of_le_length (by simp)] at hrow
    rw [List.take_of_length_le (by simp)] at hrow
    obtain ⟨i, _, rfl⟩ := List.mem_map.mp hrow
    simp

theorem length_setRows (N n : Nat) (p : Poly) (f : Nat → Nat → Nat) :
    n ≤ (p.setRows N n f).Coeffs.length := by
  unfold Poly.setRows
  simp

theorem hasRows_mono (N n m : Nat) (p : Poly) (hm : m ≤ n) (h : p.hasRows N n = true) :
    p.hasRows N m = true := by
  unfold Poly.hasRows at *
  simp only [Bool.and_eq_true, decide_eq_true_eq, List.all_eq_true] at *
  refine ⟨le_trans hm h.1, fun row hrow => h.2 row ?_⟩
  exact (List.take_subset_take_left p.Coeffs hm) hrow

theorem hasRows_NewPoly (r : Ring) (n : Nat) (hn : n ≤ r.Modulus.length) :
    r.NewPoly.hasRows r.N n = true := by
  unfold Poly.hasRows Ring.NewPoly
  simp only [Bool.and_eq_true, decide_eq_true_eq, List.all_eq_true, List.length_replicate]
  refine ⟨hn, fun row hrow => ?_⟩
  have := List.eq_of_mem_replicate (List.mem_of_mem_take hrow)
  simp [this]

theorem truncate_setRows (N n : Nat) (p : Poly) (f : Nat → Nat → Nat) :
    ∃ out, (p.setRows N n f).truncate n = some out ∧ out.Coeffs.length = n ∧
      ∀ i j, i < n → j < N → out.coeff i j = f i j := by
  refine ⟨⟨(p.setRows N n f).Coeffs.take n⟩, ?_, ?_, ?_⟩
  · unfold Poly.truncate
    rw [if_pos (length_setRows N n p f)]
  · simp [List.length_take, length_setRows N n p f]
  · intro i j hi hj
    rw [← coeff_setRows N n p f i j hi hj]
    unfold Poly.coeff
    simp only [List.getD_eq_getElem?_getD]
    rw [List.getElem?_take_of_lt hi]

theorem truncate_length (n : Nat) (p out : Poly) (h : p.truncate n = some out) :
    out.Coeffs.length = n := by
  unfold Poly.truncate at h
  split at h
  · next hn =>
    cases h
    simp [List.length_take, hn]
  · cases h

theorem rowsLvl_of_lt (level : Nat) (h : level + 1 < 2 ^ 64) : rowsLvl level = level + 1 :=
  Nat.mod_eq_of_lt h

theorem rowsLvl_of_lt_length (r : Ring) (level : Nat) (h : level < r.Modulus.length) :
    rowsLvl level = level + 1 :=
  rowsLvl_of_lt level (lt_of_le_of_lt h r.Modulus_len)

/-! ### `MergeDec` -/

theorem AddLvl_acc (r : Ring) (level : Nat) (res k : Poly) :
    r.AddLvl level res k res =
      if rowsLvl level ≤ r.Modulus.length ∧ res.hasRows r.N (rowsLvl level) = true ∧
          k.hasRows r.N (rowsLvl level) = true then
        some (res.setRows r.N (rowsLvl level)
          (fun i j => (res.coeff i j + k.coeff i j) % r.modulus i))
      else none := by
  unfold Ring.AddLvl
  by_cases h1 : rowsLvl level ≤ r.Modulus.length <;>
  by_cases h2 : res.hasRows r.N (rowsLvl level) = true <;>
  by_cases h3 : k.hasRows r.N (rowsLvl level) = true <;>
  simp [h1, h2, h3]

theorem AddLvl_swap (r : Ring) (level : Nat) (res a b : Poly) :
    (r.AddLvl level res a res >>= fun res1 => r.AddLvl level res1 b res1) =
      (r.AddLvl level res b res >>= fun res1 => r.AddLvl level res1 a res1) := by
  have key : ∀ x y : Poly, x.hasRows r.N (rowsLvl level) = true → y.hasRows r.N (rowsLvl level) = true →
      rowsLvl level ≤ r.Modulus.length → res.hasRows r.N (rowsLvl level) = true →
      (r.AddLvl level res x res >>= fun res1 => r.AddLvl level res1 y res1) =
        some (res.setRows r.N (rowsLvl level)
          (fun i j => (res.coeff i j + x.coeff i j + y.coeff i j) % r.modulus i)) := by
    intro x y hx hy hG hres
    rw [AddLvl_acc, if_pos ⟨hG, hres, hx⟩]
    simp only [Option.some_bind, Option.bind_eq_bind]
    rw [AddLvl_acc, if_pos ⟨hG, hasRows_setRows _ _ _ _, hy⟩, setRows_setRows]
    congr 1
    apply setRows_congr
    intro i hi j hj
    rw [coeff_setRows _ _ _ _ i j hi hj, Nat.mod_add_mod]
  by_cases hG : rowsLvl level ≤ r.Modulus.length
  · by_cases hres : res.hasRows r.N (rowsLvl level) = true
    · by_cases ha : a.hasRows r.N (rowsLvl level) = true
      · by_cases hb : b.hasRows r.N (rowsLvl level) = true
        · rw [key a b ha hb hG hres, key b a hb ha hG hres]
          congr 1
          apply setRows_congr
          intro i _ j _
          congr 1
          omega
        · have hnb : ∀ x : Poly, r.AddLvl level x b x = none := by
            intro x; rw [AddLvl_acc, if_neg (fun h => hb h.2.2)]
          rw [hnb res]
          cases r.AddLvl level res a res <;> simp [hnb]
      · have hna : ∀ x : Poly, r.AddLvl level x a x = none := by
          intro x; rw [AddLvl_acc, if_neg (fun h => ha h.2.2)]
        rw [hna res]
        cases r.AddLvl level res b res <;> simp [hna]
    · have hn : ∀ x : Poly, r.AddLvl level res x res = none := by
        intro x; rw [AddLvl_acc, if_neg (fun h => hres h.2.1)]
      simp [hn]
  · have hn : ∀ x y : Poly, r.AddLvl level x y x = none := by
      intro x y; rw [AddLvl_acc, if_neg (fun h => hG h.1)]
    simp [hn]

theorem foldlM_AddLvl_perm (r : Ring) (level : Nat) (l1 l2 : List Poly) (h : l1.Perm l2) :
    ∀ res : Poly, l1.foldlM (fun res k => r.AddLvl level res k res) res =
      l2.foldlM (fun res k => r.AddLvl level res k res) res := by
  induction h with
  | nil => intro res; rfl
  | cons x _ ih =>
    intro res
    simp only [List.foldlM_cons]
    congr 1
    funext res1
    exact ih res1
  | swap x y l =>
    intro res
    simp only [List.foldlM_cons]
    rw [← bind_assoc, ← bind_assoc, AddLvl_swap]
  | trans _ _ ih1 ih2 =>
    intro res
    rw [ih1 res, ih2 res]

/-- C4: `MergeDec` returns the same thing, the same polynomial or the same failure, for
every reordering of the list of shares. -/
theorem MergeDec_perm (dec : mkDecryptor) (c0 : Option Poly) (level : Nat)
    (shares shares1 : List Poly) (h : shares.Perm shares1) :
    dec.MergeDec c0 level shares = dec.MergeDec c0 level shares1 := by
  unfold mkDecryptor.MergeDec
  cases c0 with
  | none => rfl
  | some c0 =>
    simp only
    congr 1
    funext res
    rw [foldlM_AddLvl_perm dec.ringQ level shares shares1 h res]

/-- Two shares over the sample ring, merged in both orders. -/
theorem MergeDec_perm_witness :
    [sampleShareA, sampleShareB].Perm [sampleShareB, sampleShareA] ∧
    sampleDec.MergeDec (some sampleC0) 1 [sampleShareA, sampleShareB] =
      sampleDec.MergeDec (some sampleC0) 1 [sampleShareB, sampleShareA] ∧
    sampleDec.MergeDec (some sampleC0) 1 [sampleShareA, sampleShareB] =
      some ⟨[[1, 0], [0, 0]]⟩ :=
  ⟨List.Perm.swap _ _ _,
    MergeDec_perm sampleDec (some sampleC0) 1 _ _ (List.Perm.swap _ _ _), by decide⟩

theorem foldlM_AddLvl_some (r : Ring) (level : Nat) (ks : List Poly)
    (hG : rowsLvl level ≤ r.Modulus.length) (hks : ∀ k ∈ ks, k.hasRows r.N (rowsLvl level) = true) :
    ∀ res : Poly, res.hasRows r.N (rowsLvl level) = true →
      ∃ res1, ks.foldlM (fun res k => r.AddLvl level res k res) res = some res1 ∧
        res1.hasRows r.N (rowsLvl level) = true ∧
        ∀ i j, i < rowsLvl level → j < r.N →
          res1.coeff i j % r.modulus i =
            (res.coeff i j + (ks.map (fun k => k.coeff i j)).sum) % r.modulus i := by
  induction ks with
  | nil =>
    intro res hres
    exact ⟨res, rfl, hres, fun i j _ _ => by simp⟩
  | cons k ks ih =>
    intro res hres
    have hk : k.hasRows r.N (rowsLvl level) = true := hks k (List.mem_cons_self k ks)
    obtain ⟨res1, h1, h2, h3⟩ := ih (fun x hx => hks x (List.mem_cons_of_mem k hx))
      (res.setRows r.N (rowsLvl level) (fun i j => (res.coeff i j + k.coeff i j) % r.modulus i))
      (hasRows_setRows _ _ _ _)
    refine ⟨res1, ?_, h2, ?_⟩
    · rw [List.foldlM_cons, AddLvl_acc, if_pos ⟨hG, hres, hk⟩]
      exact h1
    · intro i j hi hj
      rw [h3 i j hi hj, coeff_setRows _ _ _ _ i j hi hj, Nat.mod_add_mod]
      simp only [List.map_cons, List.sum_cons]
      congr 1
      omega

theorem MergeDec_some_rows (dec : mkDecryptor) (c0 : Poly) (level : Nat) (shares : List Poly)
    (hG : rowsLvl level ≤ dec.ringQ.Modulus.length)
    (hc0 : c0.hasRows dec.ringQ.N (rowsLvl level) = true)
    (hshares : ∀ k ∈ shares, k.hasRows dec.ringQ.N (rowsLvl level) = true) :
    ∃ out, dec.MergeDec (some c0) level shares = some out ∧ out.Coeffs.length = rowsLvl level ∧
      ∀ i j, i < rowsLvl level → j < dec.ringQ.N →
        out.coeff i j =
          (c0.coeff i j + (shares.map (fun k => k.coeff i j)).sum) % dec.ringQ.modulus i := by
  obtain ⟨res1, h1, h2, h3⟩ := foldlM_AddLvl_some dec.ringQ level shares hG hshares
    (dec.ringQ.NewPoly.setRows dec.ringQ.N (rowsLvl level) (fun i j => c0.coeff i j))
    (hasRows_setRows _ _ _ _)
  obtain ⟨out, ho1, ho2, ho3⟩ := truncate_setRows dec.ringQ.N (rowsLvl level) res1
    (fun i j => res1.coeff i j % dec.ringQ.modulus i)
  refine ⟨out, ?_, ho2, ?_⟩
  · unfold mkDecryptor.MergeDec
    simp only
    have hcopy : dec.ringQ.CopyLvl level c0 dec.ringQ.NewPoly =
        some (dec.ringQ.NewPoly.setRows dec.ringQ.N (rowsLvl level) (fun i j => c0.coeff i j)) := by
      unfold Ring.CopyLvl
      simp [hc0, hasRows_NewPoly dec.ringQ (rowsLvl level) hG]
    have hred : dec.ringQ.ReduceLvl level res1 res1 =
        some (res1.setRows dec.ringQ.N (rowsLvl level)
          (fun i j => res1.coeff i j % dec.ringQ.modulus i)) := by
      unfold Ring.ReduceLvl
      simp [hG, h2]
    rw [hcopy]
    simp only [Option.some_bind, Option.bind_eq_bind]
    rw [h1]
    simp only [Option.some_bind]
    rw [hred]
    simpa using ho1
  · intro i j hi hj
    rw [ho3 i j hi hj, h3 i j hi hj, coeff_setRows _ _ _ _ i j hi hj]

theorem MergeDec_some (dec : mkDecryptor) (c0 : Poly) (level : Nat) (shares : List Poly)
    (hlevel : level < dec.ringQ.Modulus.length)
    (hc0 : c0.hasRows dec.ringQ.N (level + 1) = true)
    (hshares : ∀ k ∈ shares, k.hasRows dec.ringQ.N (level + 1) = true) :
    ∃ out, dec.MergeDec (some c0) level shares = some out ∧ out.Coeffs.length = level + 1 ∧
      ∀ i j, i < level + 1 → j < dec.ringQ.N →
        out.coeff i j =
          (c0.coeff i j + (shares.map (fun k => k.coeff i j)).sum) % dec.ringQ.modulus i := by
  have hr : rowsLvl level = level + 1 := rowsLvl_of_lt_length dec.ringQ level hlevel
  have h := MergeDec_some_rows dec c0 level shares (by rw [hr]; exact hlevel)
    (by rw [hr]; exact hc0) (by rw [hr]; exact hshares)
  rw [hr] at h
  exact h

/-- C5: for a present `c0`, a level within the modulus chain and shares that have the rows
`0 .. level`, `MergeDec` returns a polynomial whose coefficient `j` of row `i ≤ level` is
`c0 + sum of the shares` reduced modulo the row's modulus; with no share it is `c0`
reduced. -/
theorem MergeDec_reduced_sum (dec : mkDecryptor) (c0 : Poly) (level : Nat)
    (shares : List Poly) (hlevel : level < dec.ringQ.Modulus.length)
    (hc0 : c0.hasRows dec.ringQ.N (level + 1) = true)
    (hshares : ∀ k ∈ shares, k.hasRows dec.ringQ.N (level + 1) = true) :
    (∃ out, dec.MergeDec (some c0) level shares = some out ∧
      ∀ i j, i ≤ level → j < dec.ringQ.N →
        out.coeff i j =
          (c0.coeff i j + (shares.map (fun k => k.coeff i j)).sum) % dec.ringQ.modulus i) ∧
    (∃ out, dec.MergeDec (some c0) level [] = some out ∧
      ∀ i j, i ≤ level → j < dec.ringQ.N →
        out.coeff i j = c0.coeff i j % dec.ringQ.modulus i) := by
  constructor
  · obtain ⟨out, h1, _, h3⟩ := MergeDec_some dec c0 level shares hlevel hc0 hshares
    exact ⟨out, h1, fun i j hi hj => h3 i j (by omega) hj⟩
  · obtain ⟨out, h1, _, h3⟩ := MergeDec_some dec c0 level [] hlevel hc0 (by simp)
    exact ⟨out, h1, fun i j hi hj => by simpa using h3 i j (by omega) hj⟩

/-- The sample constant term and two shares at level 1; with no share the unreduced 9 becomes 4. -/
theorem MergeDec_reduced_sum_witness :
    (1 < sampleDec.ringQ.Modulus.length ∧
      sampleC0.hasRows sampleDec.ringQ.N (1 + 1) = true ∧
      ∀ k ∈ [sampleShareA, sampleShareB], k.hasRows sampleDec.ringQ.N (1 + 1) = true) ∧
    (∃ out, sampleDec.MergeDec (some sampleC0) 1 [sampleShareA, sampleShareB] = some out ∧
      ∀ i j, i ≤ 1 → j < sampleDec.ringQ.N →
        out.coeff i j =
          (sampleC0.coeff i j + ([sampleShareA, sampleShareB].map (fun k => k.coeff i j)).sum)
            % sampleDec.ringQ.modulus i) ∧
    sampleDec.MergeDec (some sampleC0) 1 [] = some ⟨[[4, 2], [3, 4]]⟩ :=
  ⟨⟨by decide, by decide, by decide⟩,
    (MergeDec_reduced_sum sampleDec sampleC0 1 [sampleShareA, sampleShareB]
      (by decide) (by decide) (by decide)).1, by decide⟩

/-! ### `PartDec` -/

theorem ReadLvlNew_some (s : GaussianSampler) (level : Nat)
    (hG : rowsLvl level ≤ s.baseRing.Modulus.length) :
    ∃ e0, s.ReadLvlNew level = some e0 ∧ e0.hasRows s.baseRing.N (rowsLvl level) = true := by
  refine ⟨_, if_pos hG, ?_⟩
  unfold Poly.hasRows
  simp only [Bool.and_eq_true, decide_eq_true_eq, List.all_eq_true]
  constructor
  · simp
  · intro row hrow
    obtain ⟨i, _, rfl⟩ := List.mem_map.mp (List.mem_of_mem_take hrow)
    simp

theorem PartDec_some_rows (r : Ring) (sample : Nat → Int) (ct : Poly) (level : Nat)
    (sk : MKSecretKey) (hG : rowsLvl level ≤ r.Modulus.length)
    (hct : ct.hasRows r.N (rowsLvl level) = true)
    (hsk : sk.Key.Value.hasRows r.N (rowsLvl level) = true) :
    ∃ e0 e out, (NewMKDecryptor r sample).samplerGaussian.ReadLvlNew level = some e0 ∧
      r.NTTLvl level e0 e0 = some e ∧
      (NewMKDecryptor r sample).PartDec (some ct) level sk = some out ∧
      out.Coeffs.length = rowsLvl level ∧
      ∀ i j, i < rowsLvl level → j < r.N →
        out.coeff i j = (e.coeff i j + ct.coeff i j * sk.Key.Value.coeff i j) % r.modulus i := by
  obtain ⟨e0, he0, he0rows⟩ :=
    ReadLvlNew_some (NewMKDecryptor r sample).samplerGaussian level hG
  have he0rows1 : e0.hasRows r.N (rowsLvl level) = true := he0rows
  have hntt : r.NTTLvl level e0 e0 = some (e0.setRows r.N (rowsLvl level)
      (fun i j => (r.NTT i ((e0.Coeffs.getD i []).take r.N)).getD j 0)) := by
    unfold Ring.NTTLvl
    simp [hG, he0rows1]
  obtain ⟨out, ho1, ho2, ho3⟩ := truncate_setRows r.N (rowsLvl level)
    (e0.setRows r.N (rowsLvl level) (fun i j => (r.NTT i ((e0.Coeffs.getD i []).take r.N)).getD j 0))
    (fun i j => ((e0.setRows r.N (rowsLvl level)
      (fun i j => (r.NTT i ((e0.Coeffs.getD i []).take r.N)).getD j 0)).coeff i j
        + ct.coeff i j * sk.Key.Value.coeff i j) % r.modulus i)
  refine ⟨e0, _, out, he0, hntt, ?_, ho2, ho3⟩
  unfold mkDecryptor.PartDec
  simp only
  rw [he0]
  simp only [Option.some_bind, Option.bind_eq_bind]
  have hntt1 : (NewMKDecryptor r sample).ringQ.NTTLvl level e0 e0 = r.NTTLvl level e0 e0 := rfl
  rw [hntt1, hntt]
  simp only [Option.some_bind]
  have hmul : (NewMKDecryptor r sample).ringQ.MulCoeffsMontgomeryAndAddLvl level ct
      sk.Key.Value (e0.setRows r.N (rowsLvl level)
        (fun i j => (r.NTT i ((e0.Coeffs.getD i []).take r.N)).getD j 0)) =
      some ((e0.setRows r.N (rowsLvl level)
        (fun i j => (r.NTT i ((e0.Coeffs.getD i []).take r.N)).getD j 0)).setRows r.N (rowsLvl level)
          (fun i j => ((e0.setRows r.N (rowsLvl level)
            (fun i j => (r.NTT i ((e0.Coeffs.getD i []).take r.N)).getD j 0)).coeff i j
              + ct.coeff i j * sk.Key.Value.coeff i j) % r.modulus i)) := by
    unfold Ring.MulCoeffsMontgomeryAndAddLvl Ring.mulAddRows
    have h1 : (NewMKDecryptor r sample).ringQ = r := rfl
    rw [h1]
    simp [hG, hct, hsk, hasRows_setRows]
  rw [hmul]
  simpa using ho1

theorem PartDec_some (r : Ring) (sample : Nat → Int) (ct : Poly) (level : Nat)
    (sk : MKSecretKey) (hlevel : level < r.Modulus.length)
    (hct : ct.hasRows r.N (level + 1) = true)
    (hsk : sk.Key.Value.hasRows r.N (level + 1) = true) :
    ∃ e0 e out, (NewMKDecryptor r sample).samplerGaussian.ReadLvlNew level = some e0 ∧
      r.NTTLvl level e0 e0 = some e ∧
      (NewMKDecryptor r sample).PartDec (some ct) level sk = some out ∧
      out.Coeffs.length = level + 1 ∧
      ∀ i j, i < level + 1 → j < r.N →
        out.coeff i j = (e.coeff i j + ct.coeff i j * sk.Key.Value.coeff i j) % r.modulus i := by
  have hr : rowsLvl level = level + 1 := rowsLvl_of_lt_length r level hlevel
  have h := PartDec_some_rows r sample ct level sk (by rw [hr]; exact hlevel)
    (by rw [hr]; exact hct) (by rw [hr]; exact hsk)
  rw [hr] at h
  exact h

/-- C6: for a present `ct`, a level within the modulus chain and operands that have the rows
`0 .. level`, `PartDec` returns a share whose coefficient `j` of row `i ≤ level` is
`ct * sk + e` modulo the row's modulus, `e` being the smudging noise the sampler drew,
taken in the transform domain. -/
theorem PartDec_share (r : Ring) (sample : Nat → Int) (ct : Poly) (level : Nat)
    (sk : MKSecretKey) (hlevel : level < r.Modulus.length)
    (hct : ct.hasRows r.N (level + 1) = true)
    (hsk : sk.Key.Value.hasRows r.N (level + 1) = true) :
    ∃ e0 e out, (NewMKDecryptor r sample).samplerGaussian.ReadLvlNew level = some e0 ∧
      r.NTTLvl level e0 e0 = some e ∧
      (NewMKDecryptor r sample).PartDec (some ct) level sk = some out ∧
      ∀ i j, i ≤ level → j < r.N →
        out.coeff i j = (ct.coeff i j * sk.Key.Value.coeff i j + e.coeff i j) % r.modulus i := by
  obtain ⟨e0, e, out, h1, h2, h3, _, h5⟩ := PartDec_some r sample ct level sk hlevel hct hsk
  refine ⟨e0, e, out, h1, h2, h3, fun i j hi hj => ?_⟩
  rw [h5 i j (by omega) hj, Nat.add_comm]

/-- The sample ciphertext term and secret key at level 1. -/
theorem PartDec_share_witness :
    (1 < sampleRing.Modulus.length ∧ sampleCt.hasRows sampleRing.N (1 + 1) = true ∧
      sampleSk.Key.Value.hasRows sampleRing.N (1 + 1) = true) ∧
    (∃ e0 e out, (NewMKDecryptor sampleRing sampleNoise).samplerGaussian.ReadLvlNew 1 = some e0 ∧
      sampleRing.NTTLvl 1 e0 e0 = some e ∧
      (NewMKDecryptor sampleRing sampleNoise).PartDec (some sampleCt) 1 sampleSk = some out ∧
      ∀ i j, i ≤ 1 → j < sampleRing.N →
        out.coeff i j =
          (sampleCt.coeff i j * sampleSk.Key.Value.coeff i j + e.coeff i j)
            % sampleRing.modulus i) ∧
    (NewMKDecryptor sampleRing sampleNoise).PartDec (some sampleCt) 1 sampleSk =
      some ⟨[[4, 0], [0, 5]]⟩ :=
  ⟨⟨by decide, by decide, by decide⟩,
    PartDec_share sampleRing sampleNoise sampleCt 1 sampleSk (by decide) (by decide) (by decide),
    by decide⟩

/-- C7: for a level within the modulus chain and present operands that have the rows
`0 .. level`, `PartDec` and `MergeDec` each return a polynomial of exactly `level + 1`
coefficient rows. -/
theorem PartDec_MergeDec_rows (r : Ring) (sample : Nat → Int) (ct c0 : Poly) (level : Nat)
    (sk : MKSecretKey) (shares : List Poly) (hlevel : level < r.Modulus.length)
    (hct : ct.hasRows r.N (level + 1) = true)
    (hsk : sk.Key.Value.hasRows r.N (level + 1) = true)
    (hc0 : c0.hasRows r.N (level + 1) = true)
    (hshares : ∀ k ∈ shares, k.hasRows r.N (level + 1) = true) :
    (∃ out, (NewMKDecryptor r sample).PartDec (some ct) level sk = some out ∧
      out.Coeffs.length = level + 1) ∧
    (∃ out, (NewMKDecryptor r sample).MergeDec (some c0) level shares = some out ∧
      out.Coeffs.length = level + 1) := by
  constructor
  · obtain ⟨_, _, out, _, _, h3, h4, _⟩ := PartDec_some r sample ct level sk hlevel hct hsk
    exact ⟨out, h3, h4⟩
  · obtain ⟨out, h1, h2, _⟩ :=
      MergeDec_some (NewMKDecryptor r sample) c0 level shares hlevel hc0 hshares
    exact ⟨out, h1, h2⟩

/-- Level 0 over a chain of two moduli: one row is returned by each function. -/
theorem PartDec_MergeDec_rows_witness :
    (0 < sampleRing.Modulus.length ∧ sampleCt.hasRows sampleRing.N (0 + 1) = true ∧
      sampleSk.Key.Value.hasRows sampleRing.N (0 + 1) = true ∧
      sampleC0.hasRows sampleRing.N (0 + 1) = true ∧
      ∀ k ∈ [sampleShareA], k.hasRows sampleRing.N (0 + 1) = true) ∧
    ((∃ out, (NewMKDecryptor sampleRing sampleNoise).PartDec (some sampleCt) 0 sampleSk
        = some out ∧ out.Coeffs.length = 0 + 1) ∧
      (∃ out, (NewMKDecryptor sampleRing sampleNoise).MergeDec (some sampleC0) 0 [sampleShareA]
        = some out ∧ out.Coeffs.length = 0 + 1)) ∧
    (NewMKDecryptor sampleRing sampleNoise).PartDec (some sampleCt) 0 sampleSk =
      some ⟨[[4, 0]]⟩ ∧
    (NewMKDecryptor sampleRing sampleNoise).MergeDec (some sampleC0) 0 [sampleShareA] =
      some ⟨[[0, 4]]⟩ :=
  ⟨⟨by decide, by decide, by decide, by decide, by decide⟩,
    PartDec_MergeDec_rows sampleRing sampleNoise sampleCt sampleC0 0 sampleSk [sampleShareA]
      (by decide) (by decide) (by decide) (by decide) (by decide),
    by decide, by decide⟩

/-! ### `Dot` and `DotLvl` -/

theorem mulAddRows_acc (r : Ring) (n : Nat) (a b res : Poly) :
    r.mulAddRows n a b res =
      if n ≤ r.Modulus.length ∧ a.hasRows r.N n = true ∧ b.hasRows r.N n = true ∧
          res.hasRows r.N n = true then
        some (res.setRows r.N n
          (fun i j => (res.coeff i j + a.coeff i j * b.coeff i j) % r.modulus i))
      else none := by
  unfold Ring.mulAddRows
  by_cases h1 : n ≤ r.Modulus.length <;>
  by_cases h2 : a.hasRows r.N n = true <;>
  by_cases h3 : b.hasRows r.N n = true <;>
  by_cases h4 : res.hasRows r.N n = true <;>
  simp [h1, h2, h3, h4]

theorem dotLoop_ok (r : Ring) (n : Nat) (hn : n ≤ r.Modulus.length)
    (pairs : List (Poly × Poly))
    (hpairs : ∀ ab ∈ pairs, ab.1.hasRows r.N n = true ∧ ab.2.hasRows r.N n = true) :
    ∀ res : Poly, res.hasRows r.N n = true →
      ∃ res1, dotLoop (r.mulAddRows n) pairs res = DotResult.ok res1 ∧
        res1.hasRows r.N n = true ∧
        ∀ i j, i < n → j < r.N →
          res1.coeff i j % r.modulus i =
            (res.coeff i j + (pairs.map (fun ab => ab.1.coeff i j * ab.2.coeff i j)).sum)
              % r.modulus i ∧
          (res.coeff i j % r.modulus i = res.coeff i j →
            res1.coeff i j % r.modulus i = res1.coeff i j) := by
  induction pairs with
  | nil =>
    intro res hres
    exact ⟨res, rfl, hres, fun i j _ _ => ⟨by simp, fun h => h⟩⟩
  | cons ab pairs ih =>
    intro res hres
    obtain ⟨a, b⟩ := ab
    have hab := hpairs (a, b) (List.mem_cons_self _ _)
    obtain ⟨res1, h1, h2, h3⟩ := ih (fun x hx => hpairs x (List.mem_cons_of_mem _ hx))
      (res.setRows r.N n (fun i j => (res.coeff i j + a.coeff i j * b.coeff i j) % r.modulus i))
      (hasRows_setRows _ _ _ _)
    refine ⟨res1, ?_, h2, ?_⟩
    · unfold dotLoop
      rw [mulAddRows_acc, if_pos ⟨hn, hab.1, hab.2, hres⟩]
      exact h1
    · intro i j hi hj
      obtain ⟨h4, h5⟩ := h3 i j hi hj
      rw [coeff_setRows _ _ _ _ i j hi hj] at h4 h5
      constructor
      · rw [h4, Nat.mod_add_mod]
        simp only [List.map_cons, List.sum_cons]
        congr 1
        omega
      · intro _
        exact h5 (Nat.mod_mod _ _)

theorem mem_zip_hasRows (N n : Nat) (l1 l2 : List Poly)
    (h1 : ∀ a ∈ l1, a.hasRows N n = true) (h2 : ∀ b ∈ l2, b.hasRows N n = true) :
    ∀ ab ∈ l1.zip l2, ab.1.hasRows N n = true ∧ ab.2.hasRows N n = true := by
  intro ab hab
  obtain ⟨a, b⟩ := ab
  have := List.of_mem_zip hab
  exact ⟨h1 a this.1, h2 b this.2⟩

theorem Dot_panics_of_length_ne (r : Ring) (level : Nat) (p1 p2 : MKDecomposedPoly)
    (res : Poly) (hlen : p1.poly.length ≠ p2.poly.length) :
    Dot p1 p2 res r = DotResult.panicked res ∧
      DotLvl level p1 p2 res r = DotResult.panicked res := by
  constructor
  · unfold Dot; rw [if_pos hlen]
  · unfold DotLvl; rw [if_pos hlen]

theorem Dot_returns (r : Ring) (p1 p2 : MKDecomposedPoly) (res : Poly)
    (hlen : p1.poly.length = p2.poly.length)
    (h1 : ∀ a ∈ p1.poly, a.hasRows r.N r.Modulus.length = true)
    (h2 : ∀ b ∈ p2.poly, b.hasRows r.N r.Modulus.length = true)
    (hres : res.hasRows r.N r.Modulus.length = true) :
    (Dot p1 p2 res r).failed = false := by
  obtain ⟨res1, hd1, _, _⟩ := dotLoop_ok r r.Modulus.length (le_refl _)
    (p1.poly.zip p2.poly) (mem_zip_hasRows _ _ _ _ h1 h2) res hres
  have hd : Dot p1 p2 res r = DotResult.ok res1 := by
    unfold Dot; rw [if_neg (fun h => h hlen)]; exact hd1
  rw [hd]
  rfl

theorem DotLvl_returns (r : Ring) (level : Nat) (p1 p2 : MKDecomposedPoly) (res : Poly)
    (hlen : p1.poly.length = p2.poly.length) (hlevel : level < r.Modulus.length)
    (h1 : ∀ a ∈ p1.poly, a.hasRows r.N (level + 1) = true)
    (h2 : ∀ b ∈ p2.poly, b.hasRows r.N (level + 1) = true)
    (hres : res.hasRows r.N (level + 1) = true) :
    (DotLvl level p1 p2 res r).failed = false := by
  have hr : rowsLvl level = level + 1 := rowsLvl_of_lt_length r level hlevel
  obtain ⟨res1, hd1, _, _⟩ := dotLoop_ok r (level + 1) hlevel
    (p1.poly.zip p2.poly) (mem_zip_hasRows _ _ _ _ h1 h2) res hres
  have hd : DotLvl level p1 p2 res r = DotResult.ok res1 := by
    unfold DotLvl Ring.MulCoeffsMontgomeryAndAddLvl
    rw [if_neg (fun h => h hlen), hr]
    exact hd1
  rw [hd]
  rfl

/-- C9, as the claim states it, fails: with two digits on each side, the second digit of
`p1` being a polynomial without rows, `Dot` panics although the digit counts are equal,
and the accumulator is left holding the first product (`[[1,1,..],[1,1,..]]` has become
`[[4,3,..],[1,9,..]]`); `DotLvl` at level 2 over a chain of two moduli panics on operands
of equal digit counts as well. -/
theorem Dot_equal_length_panic_counterexample :
    sampleDigits16Short.poly.length = sampleDigits16B.poly.length ∧
    Dot sampleDigits16Short sampleDigits16B sampleAcc16 sampleRing16 =
      DotResult.panicked ⟨[padRow [4, 3], padRow [1, 9]]⟩ ∧
    (Dot sampleDigits16Short sampleDigits16B sampleAcc16 sampleRing16).res ≠ sampleAcc16 ∧
    sampleDigits16A.poly.length = sampleDigits16B.poly.length ∧
    (DotLvl 2 sampleDigits16A sampleDigits16B sampleAcc16 sampleRing16).failed = true := by
  decide

/-- C9, amended: `Dot` and `DotLvl` panic whenever `p1` and `p2` have different numbers of
digits, and then `res` is as it was, no product over a common prefix having been
accumulated; with equal numbers of digits the call returns when every digit and `res` have
the rows it addresses, each of `N` coefficients: a row per modulus of the ring for `Dot`,
the rows `0 .. level` with the level within the modulus chain for `DotLvl`. -/
theorem Dot_length_check (r : Ring) (level : Nat) (p1 p2 : MKDecomposedPoly) (res : Poly) :
    (p1.poly.length ≠ p2.poly.length →
      Dot p1 p2 res r = DotResult.panicked res ∧
        DotLvl level p1 p2 res r = DotResult.panicked res) ∧
    (p1.poly.length = p2.poly.length →
      (∀ a ∈ p1.poly, a.hasRows r.N r.Modulus.length = true) →
      (∀ b ∈ p2.poly, b.hasRows r.N r.Modulus.length = true) →
      res.hasRows r.N r.Modulus.length = true →
      (Dot p1 p2 res r).failed = false) ∧
    (p1.poly.length = p2.poly.length → level < r.Modulus.length →
      (∀ a ∈ p1.poly, a.hasRows r.N (level + 1) = true) →
      (∀ b ∈ p2.poly, b.hasRows r.N (level + 1) = true) →
      res.hasRows r.N (level + 1) = true →
      (DotLvl level p1 p2 res r).failed = false) :=
  ⟨Dot_panics_of_length_ne r level p1 p2 res, Dot_returns r p1 p2 res,
    DotLvl_returns r level p1 p2 res⟩

/-- Two digits against one digit panic and leave the accumulator; two against two return,
also at level 0 with operands that only have row 0. -/
theorem Dot_length_check_witness :
    (Dot sampleDecompA sampleDecompC sampleAcc sampleRing = DotResult.panicked sampleAcc ∧
      DotLvl 0 sampleDecompA sampleDecompC sampleAcc sampleRing =
        DotResult.panicked sampleAcc) ∧
    (Dot sampleDigits16A sampleDigits16B sampleAcc16 sampleRing16).failed = false ∧
    (DotLvl 0 ⟨[⟨[padRow [1, 2]]⟩]⟩ ⟨[⟨[padRow [3, 1]]⟩]⟩ ⟨[padRow [1, 1]]⟩
      sampleRing16).failed = false ∧
    DotLvl 0 ⟨[⟨[padRow [1, 2]]⟩]⟩ ⟨[⟨[padRow [3, 1]]⟩]⟩ ⟨[padRow [1, 1]]⟩ sampleRing16 =
      DotResult.ok ⟨[padRow [4, 3]]⟩ :=
  ⟨(Dot_length_check sampleRing 0 sampleDecompA sampleDecompC sampleAcc).1 (by decide),
    (Dot_length_check sampleRing16 0 sampleDigits16A sampleDigits16B sampleAcc16).2.1
      (by decide) (by decide) (by decide) (by decide),
    (Dot_length_check sampleRing16 0 ⟨[⟨[padRow [1, 2]]⟩]⟩ ⟨[⟨[padRow [3, 1]]⟩]⟩
      ⟨[padRow [1, 1]]⟩).2.2 (by decide) (by decide) (by decide) (by decide) (by decide),
    by decide⟩

/-- C10: `Dot` adds the products to what `res` already holds and never clears it, although
its documentation says it stores the dot product in `res`.  Over the modulus chain
`[257, 641]`, from the accumulator `[[1,1,..],[1,1,..]]` the call leaves
`[[12,3,..],[6,15,..]]`, while the dot product is `[[11,2,..],[5,14,..]]`. -/
theorem Dot_adds_to_nonzero_acc :
    sampleDigits16A.poly.length = sampleDigits16B.poly.length ∧
    Dot sampleDigits16A sampleDigits16B sampleAcc16 sampleRing16 =
      DotResult.ok ⟨[padRow [12, 3], padRow [6, 15]]⟩ ∧
    dotProductCoeff sampleRing16 sampleDigits16A sampleDigits16B 0 0 = 11 ∧
    dotProductCoeff sampleRing16 sampleDigits16A sampleDigits16B 0 1 = 2 ∧
    dotProductCoeff sampleRing16 sampleDigits16A sampleDigits16B 1 0 = 5 ∧
    dotProductCoeff sampleRing16 sampleDigits16A sampleDigits16B 1 1 = 14 ∧
    DotLvl 0 sampleDigits16A sampleDigits16B sampleAcc16 sampleRing16 =
      DotResult.ok ⟨[padRow [12, 3], padRow [1, 1]]⟩ := by
  decide

/-! ### Absent operands -/

/-- C11: `PartDec` panics, returning no share, when the ciphertext term is nil, and
`MergeDec` panics, returning no polynomial, when the constant term is nil, whatever the
level, the secret key and the shares. -/
theorem PartDec_MergeDec_nil (dec : mkDecryptor) (level : Nat) (sk : MKSecretKey)
    (shares : List Poly) :
    dec.PartDec none level sk = none ∧ dec.MergeDec none level shares = none :=
  ⟨rfl, rfl⟩

/-! ### Symmetry of `MergeSlices` -/

/-- C14: for duplicate-free `s1` and `s2`, `MergeSlices s1 s2 = MergeSlices s2 s1`: the
merged sequence, and with it the index of each id, does not depend on the order of the
operands. -/
theorem MergeSlices_comm (s1 s2 : List Nat) (h1 : s1.Nodup) (h2 : s2.Nodup) :
    MergeSlices s1 s2 = MergeSlices s2 s1 := by
  unfold MergeSlices
  have hperm : (s2.foldl mergeStep s1).Perm (s1.foldl mergeStep s2) := by
    rw [List.perm_ext_iff_of_nodup (nodup_foldl_mergeStep s2 s1 h1)
      (nodup_foldl_mergeStep s1 s2 h2)]
    intro x
    rw [mem_foldl_mergeStep, mem_foldl_mergeStep]
    exact Or.comm
  exact List.eq_of_perm_of_sorted
    (((sortSlice_perm _).trans hperm).trans (sortSlice_perm _).symm)
    (sortSlice_sorted _) (sortSlice_sorted _)

/-- The sample sets of `Test_Utils`, merged in both orders. -/
theorem MergeSlices_comm_witness :
    ([0, 2, 1].Nodup ∧ [3, 7, 12, 1, 0].Nodup) ∧
    MergeSlices [0, 2, 1] [3, 7, 12, 1, 0] = MergeSlices [3, 7, 12, 1, 0] [0, 2, 1] ∧
    MergeSlices [3, 7, 12, 1, 0] [0, 2, 1] = [0, 1, 2, 3, 7, 12] :=
  ⟨⟨by decide, by decide⟩,
    MergeSlices_comm [0, 2, 1] [3, 7, 12, 1, 0] (by decide) (by decide), by decide⟩

/-! ### `Dot` accumulates -/

/-- C15: for two decomposed polynomials of the ring with the same number of digits, `Dot`
returns and the accumulator then is the initial `res` plus the dot product, coefficient by
coefficient modulo the row's modulus (exactly so when the initial coefficient is reduced);
with no digit `res` is unchanged. -/
theorem Dot_accumulates (r : Ring) (p1 p2 : MKDecomposedPoly) (res : Poly)
    (hlen : p1.poly.length = p2.poly.length)
    (h1 : ∀ a ∈ p1.poly, a.hasRows r.N r.Modulus.length = true)
    (h2 : ∀ b ∈ p2.poly, b.hasRows r.N r.Modulus.length = true)
    (hres : res.hasRows r.N r.Modulus.length = true) :
    ∃ res1, Dot p1 p2 res r = DotResult.ok res1 ∧
      (∀ i, i < r.Modulus.length → ∀ j, j < r.N →
        res1.coeff i j % r.modulus i =
          (res.coeff i j + dotProductCoeff r p1 p2 i j) % r.modulus i) ∧
      (∀ i, i < r.Modulus.length → ∀ j, j < r.N →
        res.coeff i j % r.modulus i = res.coeff i j →
          res1.coeff i j = (res.coeff i j + dotProductCoeff r p1 p2 i j) % r.modulus i) ∧
      (p1.poly.length = 0 → res1 = res) := by
  obtain ⟨res1, hd1, _, h3⟩ := dotLoop_ok r r.Modulus.length (le_refl _)
    (p1.poly.zip p2.poly) (mem_zip_hasRows _ _ _ _ h1 h2) res hres
  have hsum : ∀ i j, i < r.Modulus.length → j < r.N →
      res1.coeff i j % r.modulus i =
        (res.coeff i j + dotProductCoeff r p1 p2 i j) % r.modulus i := by
    intro i j hi hj
    rw [(h3 i j hi hj).1]
    unfold dotProductCoeff
    rw [Nat.add_mod_mod]
  refine ⟨res1, ?_, fun i hi j hj => hsum i j hi hj, ?_, ?_⟩
  · unfold Dot
    rw [if_neg (fun h => h hlen)]
    exact hd1
  · intro i hi j hj hred
    rw [← (h3 i j hi hj).2 hred]
    exact hsum i j hi hj
  · intro h0
    have hnil : p1.poly = [] := List.length_eq_zero.mp h0
    rw [hnil] at hd1
    simp only [List.zip_nil_left, dotLoop] at hd1
    exact (DotResult.ok.inj hd1).symm

/-- The sample decomposed polynomials accumulated into an accumulator that is not zero. -/
theorem Dot_accumulates_witness :
    (sampleDecompA.poly.length = sampleDecompB.poly.length ∧
      (∀ a ∈ sampleDecompA.poly, a.hasRows sampleRing.N sampleRing.Modulus.length = true) ∧
      (∀ b ∈ sampleDecompB.poly, b.hasRows sampleRing.N sampleRing.Modulus.length = true) ∧
      sampleAcc.hasRows sampleRing.N sampleRing.Modulus.length = true) ∧
    (∃ res1, Dot sampleDecompA sampleDecompB sampleAcc sampleRing = DotResult.ok res1 ∧
      (∀ i, i < sampleRing.Modulus.length → ∀ j, j < sampleRing.N →
        res1.coeff i j % sampleRing.modulus i =
          (sampleAcc.coeff i j + dotProductCoeff sampleRing sampleDecompA sampleDecompB i j)
            % sampleRing.modulus i) ∧
      (∀ i, i < sampleRing.Modulus.length → ∀ j, j < sampleRing.N →
        sampleAcc.coeff i j % sampleRing.modulus i = sampleAcc.coeff i j →
          res1.coeff i j =
            (sampleAcc.coeff i j + dotProductCoeff sampleRing sampleDecompA sampleDecompB i j)
              % sampleRing.modulus i) ∧
      (sampleDecompA.poly.length = 0 → res1 = sampleAcc)) ∧
    Dot sampleDecompA sampleDecompB sampleAcc sampleRing = DotResult.ok ⟨[[2, 3], [6, 1]]⟩ ∧
    Dot ⟨[]⟩ ⟨[]⟩ sampleAcc sampleRing = DotResult.ok sampleAcc :=
  ⟨⟨by decide, by decide, by decide, by decide⟩,
    Dot_accumulates sampleRing sampleDecompA sampleDecompB sampleAcc
      (by decide) (by decide) (by decide) (by decide),
    by decide, by decide⟩

/-! ### A level beyond an operand -/

theorem hasRows_false_of_length_le (N level : Nat) (p : Poly) (h : p.Coeffs.length ≤ level) :
    p.hasRows N (level + 1) = false := by
  unfold Poly.hasRows
  have : ¬ level + 1 ≤ p.Coeffs.length := by omega
  simp [this]

theorem length_NewPoly (r : Ring) : r.NewPoly.Coeffs.length = r.Modulus.length := by
  simp [Ring.NewPoly]

theorem foldlM_AddLvl_none (r : Ring) (level : Nat) (ks : List Poly)
    (hwrap : level + 1 < 2 ^ 64) (hbad : ∃ k ∈ ks, k.Coeffs.length ≤ level) :
    ∀ res : Poly, ks.foldlM (fun res k => r.AddLvl level res k res) res = none := by
  induction ks with
  | nil =>
    obtain ⟨k, hk, _⟩ := hbad
    simp at hk
  | cons k ks ih =>
    intro res
    rw [List.foldlM_cons]
    obtain ⟨b, hb, hlen⟩ := hbad
    rcases List.mem_cons.mp hb with rfl | htail
    · rw [AddLvl_acc, if_neg]
      · rfl
      · intro h
        rw [rowsLvl_of_lt level hwrap, hasRows_false_of_length_le r.N level b hlen] at h
        exact Bool.false_ne_true h.2.2
    · cases r.AddLvl level res k res with
      | none => rfl
      | some res1 => exact ih ⟨b, htail, hlen⟩ res1

theorem PartDec_none_of_level (dec : mkDecryptor) (ct : Poly) (level : Nat) (sk : MKSecretKey)
    (hwrap : level + 1 < 2 ^ 64)
    (h : dec.ringQ.Modulus.length ≤ level ∨ ct.Coeffs.length ≤ level ∨
      sk.Key.Value.Coeffs.length ≤ level) :
    dec.PartDec (some ct) level sk = none := by
  unfold mkDecryptor.PartDec
  simp only
  cases dec.samplerGaussian.ReadLvlNew level with
  | none => rfl
  | some e0 =>
    simp only [Option.some_bind, Option.bind_eq_bind]
    cases hn : dec.ringQ.NTTLvl level e0 e0 with
    | none => rfl
    | some e =>
      simp only [Option.some_bind]
      have hm : dec.ringQ.MulCoeffsMontgomeryAndAddLvl level ct sk.Key.Value e = none := by
        unfold Ring.MulCoeffsMontgomeryAndAddLvl
        rw [mulAddRows_acc, if_neg]
        intro hg
        rw [rowsLvl_of_lt level hwrap] at hg
        rcases h with h | h | h
        · omega
        · rw [hasRows_false_of_length_le _ level ct h] at hg
          exact Bool.false_ne_true hg.2.1
        · rw [hasRows_false_of_length_le _ level _ h] at hg
          exact Bool.false_ne_true hg.2.2.1
      rw [hm]
      rfl

theorem MergeDec_none_of_level (dec : mkDecryptor) (c0 : Poly) (level : Nat)
    (shares : List Poly) (hwrap : level + 1 < 2 ^ 64)
    (h : dec.ringQ.Modulus.length ≤ level ∨ c0.Coeffs.length ≤ level ∨
      ∃ k ∈ shares, k.Coeffs.length ≤ level) :
    dec.MergeDec (some c0) level shares = none := by
  unfold mkDecryptor.MergeDec
  simp only
  cases hc : dec.ringQ.CopyLvl level c0 dec.ringQ.NewPoly with
  | none => rfl
  | some res =>
    simp only [Option.some_bind, Option.bind_eq_bind]
    unfold Ring.CopyLvl at hc
    rw [rowsLvl_of_lt level hwrap] at hc
    rcases h with h | h | h
    · have hnew : dec.ringQ.NewPoly.hasRows dec.ringQ.N (level + 1) = false :=
        hasRows_false_of_length_le _ level _ (by rw [length_NewPoly]; exact h)
      simp [hnew] at hc
    · simp [hasRows_false_of_length_le _ level c0 h] at hc
    · rw [foldlM_AddLvl_none dec.ringQ level shares hwrap h res]
      rfl

/-- C12, as the claim states it, fails at the largest level: `level` is a `uint64`, so at
`2^64 - 1` the row count `level+1` wraps to 0, no row is addressed, and both calls return a
polynomial without rows although the level is beyond the two moduli of the chain and the
two rows of every operand. -/
theorem max_level_counterexample :
    sampleRing16.Modulus.length ≤ maxLevel ∧ sampleAcc16.Coeffs.length ≤ maxLevel ∧
    (NewMKDecryptor sampleRing16 sampleNoise).PartDec (some sampleAcc16) maxLevel
      ⟨⟨sampleAcc16⟩, 0⟩ = some ⟨[]⟩ ∧
    (NewMKDecryptor sampleRing16 sampleNoise).MergeDec (some sampleAcc16) maxLevel
      [sampleAcc16] = some ⟨[]⟩ := by
  decide

/-- C12, amended: a call of `PartDec` or `MergeDec` whose level is below `2^64 - 1` and
beyond the modulus chain of the ring, or beyond the rows of the input polynomial, of the
secret key or of one of the shares, panics and returns no polynomial: the level is not
clamped to what the operand has. -/
theorem level_beyond_operand_fails (dec : mkDecryptor) (ct c0 : Poly) (level : Nat)
    (sk : MKSecretKey) (shares : List Poly) (hwrap : level + 1 < 2 ^ 64) :
    ((dec.ringQ.Modulus.length ≤ level ∨ ct.Coeffs.length ≤ level ∨
        sk.Key.Value.Coeffs.length ≤ level) →
      dec.PartDec (some ct) level sk = none) ∧
    ((dec.ringQ.Modulus.length ≤ level ∨ c0.Coeffs.length ≤ level ∨
        ∃ k ∈ shares, k.Coeffs.length ≤ level) →
      dec.MergeDec (some c0) level shares = none) :=
  ⟨PartDec_none_of_level dec ct level sk hwrap, MergeDec_none_of_level dec c0 level shares hwrap⟩

/-- Level 2 over the chain of two moduli, and level 1 with a share of one row. -/
theorem level_beyond_operand_fails_witness :
    (2 + 1 < 2 ^ 64 ∧ 1 + 1 < 2 ^ 64) ∧
    sampleDec.PartDec (some sampleCt) 2 sampleSk = none ∧
    sampleDec.MergeDec (some sampleC0) 1 [sampleShareA, ⟨[[1, 1]]⟩] = none ∧
    sampleDec.MergeDec (some sampleC0) 1 [sampleShareA] = some ⟨[[0, 4], [6, 1]]⟩ ∧
    sampleDec.MergeDec (some sampleC0) 0 [sampleShareA, ⟨[[1, 1]]⟩] = some ⟨[[1, 0]]⟩ :=
  ⟨⟨by decide, by decide⟩,
    (level_beyond_operand_fails sampleDec sampleCt sampleC0 2 sampleSk [] (by decide)).1
      (Or.inl (by decide)),
    (level_beyond_operand_fails sampleDec sampleCt sampleC0 1 sampleSk
      [sampleShareA, ⟨[[1, 1]]⟩] (by decide)).2
        (Or.inr (Or.inr ⟨⟨[[1, 1]]⟩, by simp, by decide⟩)),
    by decide, by decide⟩

/-! ### What a call leaves untouched -/

theorem getElem?_snoc_old (mem : Memory) (cur : Poly) (a : Nat) (h : a < mem.length) :
    (mem ++ [cur])[a]? = some (mem.get a) := by
  rw [List.getElem?_append_left h]
  unfold Memory.get
  rw [List.getD_eq_getElem?_getD, List.getElem?_eq_getElem h]
  rfl

theorem getElem?_snoc_new (mem : Memory) (cur : Poly) :
    (mem ++ [cur])[mem.length]? = some cur := by
  simp

theorem set_snoc (mem : Memory) (cur out : Poly) :
    (mem ++ [cur]).set mem.length out = mem ++ [out] := by
  simp

theorem run1_snoc (mem : Memory) (cur : Poly) (op : Poly → Option Poly) :
    Memory.run1 (mem ++ [cur]) op mem.length = (op cur).map (fun out => mem ++ [out]) := by
  unfold Memory.run1
  rw [getElem?_snoc_new]
  cases h : op cur <;> simp [h]

theorem run2_snoc (mem : Memory) (cur a : Poly) (op : Poly → Poly → Option Poly) (p1 : Nat)
    (h1 : (mem ++ [cur])[p1]? = some a) :
    Memory.run2 (mem ++ [cur]) op p1 mem.length = (op a cur).map (fun out => mem ++ [out]) := by
  unfold Memory.run2
  rw [h1, getElem?_snoc_new]
  cases h : op a cur <;> simp [h]

theorem run3_snoc (mem : Memory) (cur a b : Poly) (op : Poly → Poly → Poly → Option Poly)
    (p1 p2 : Nat) (h1 : (mem ++ [cur])[p1]? = some a) (h2 : (mem ++ [cur])[p2]? = some b) :
    Memory.run3 (mem ++ [cur]) op p1 p2 mem.length =
      (op a b cur).map (fun out => mem ++ [out]) := by
  unfold Memory.run3
  rw [h1, h2, getElem?_snoc_new]
  cases h : op a b cur <;> simp [h]

theorem foldlM_run3_snoc (r : Ring) (level : Nat) (mem : Memory) (ks : List Nat)
    (hks : ∀ k ∈ ks, k < mem.length) :
    ∀ cur : Poly,
      ks.foldlM (fun m k => Memory.run3 m (r.AddLvl level) mem.length k mem.length)
          (mem ++ [cur]) =
        ((ks.map mem.get).foldlM (fun res k => r.AddLvl level res k res) cur).map
          (fun out => mem ++ [out]) := by
  induction ks with
  | nil => intro cur; rfl
  | cons k ks ih =>
    intro cur
    rw [List.map_cons, List.foldlM_cons, List.foldlM_cons,
      run3_snoc mem cur cur (mem.get k) _ _ _ (getElem?_snoc_new mem cur)
        (getElem?_snoc_old mem cur k (hks k (List.mem_cons_self _ _)))]
    cases r.AddLvl level cur (mem.get k) cur with
    | none => rfl
    | some res1 =>
      simp only [Option.map_some', Option.some_bind, Option.bind_eq_bind]
      exact ih (fun x hx => hks x (List.mem_cons_of_mem _ hx)) res1

theorem MergeDecMem_eq (dec : mkDecryptor) (mem : Memory) (c0 level : Nat) (ks : List Nat)
    (hc0 : c0 < mem.length) (hks : ∀ k ∈ ks, k < mem.length) :
    dec.MergeDecMem mem (some c0) level ks =
      (dec.MergeDec (some (mem.get c0)) level (ks.map mem.get)).map
        (fun out => (mem ++ [out], mem.length)) := by
  unfold mkDecryptor.MergeDecMem mkDecryptor.MergeDec
  simp only
  rw [run2_snoc mem _ (mem.get c0) _ c0 (getElem?_snoc_old mem _ c0 hc0)]
  cases dec.ringQ.CopyLvl level (mem.get c0) dec.ringQ.NewPoly with
  | none => rfl
  | some res1 =>
    simp only [Option.map_some', Option.some_bind, Option.bind_eq_bind]
    rw [foldlM_run3_snoc dec.ringQ level mem ks hks res1]
    cases (ks.map mem.get).foldlM (fun res k => dec.ringQ.AddLvl level res k res) res1 with
    | none => rfl
    | some res2 =>
      simp only [Option.map_some', Option.some_bind]
      rw [run2_snoc mem res2 res2 _ _ (getElem?_snoc_new mem res2)]
      cases dec.ringQ.ReduceLvl level res2 res2 with
      | none => rfl
      | some res3 =>
        simp only [Option.map_some', Option.some_bind]
        rw [run1_snoc]
        cases res3.truncate (rowsLvl level) <;> rfl

theorem PartDecMem_eq (dec : mkDecryptor) (mem : Memory) (ct level skValue : Nat)
    (hct : ct < mem.length) (hsk : skValue < mem.length) :
    dec.PartDecMem mem (some ct) level skValue =
      (dec.PartDec (some (mem.get ct)) level ⟨⟨mem.get skValue⟩, 0⟩).map
        (fun out => (mem ++ [out], mem.length)) := by
  unfold mkDecryptor.PartDecMem mkDecryptor.PartDec
  simp only
  cases dec.samplerGaussian.ReadLvlNew level with
  | none => rfl
  | some e0 =>
    simp only [Option.some_bind, Option.bind_eq_bind]
    rw [run2_snoc mem e0 e0 _ _ (getElem?_snoc_new mem e0)]
    cases dec.ringQ.NTTLvl level e0 e0 with
    | none => rfl
    | some e =>
      simp only [Option.map_some', Option.some_bind]
      rw [run3_snoc mem e (mem.get ct) (mem.get skValue) _ ct skValue
        (getElem?_snoc_old mem e ct hct) (getElem?_snoc_old mem e skValue hsk)]
      cases dec.ringQ.MulCoeffsMontgomeryAndAddLvl level (mem.get ct) (mem.get skValue) e with
      | none => rfl
      | some out1 =>
        simp only [Option.map_some', Option.some_bind]
        rw [run1_snoc]
        cases out1.truncate (rowsLvl level) <;> rfl

/-- C13: for operands allocated in memory, a level within the modulus chain and operands
that have the rows `0 .. level`, `MergeDec` and `PartDec` return the address of a newly
allocated polynomial, and every polynomial allocated before the call holds afterwards what
it held before: `c0` and every share for `MergeDec`, `ct` and the secret key for
`PartDec`. -/
theorem MergeDec_PartDec_frame (r : Ring) (sample : Nat → Int) (mem : Memory)
    (ct skValue c0 level : Nat) (shares : List Nat)
    (hlevel : level < r.Modulus.length)
    (hct : ct < mem.length) (hsk : skValue < mem.length) (hc0 : c0 < mem.length)
    (hshares : ∀ k ∈ shares, k < mem.length)
    (hctRows : (mem.get ct).hasRows r.N (level + 1) = true)
    (hskRows : (mem.get skValue).hasRows r.N (level + 1) = true)
    (hc0Rows : (mem.get c0).hasRows r.N (level + 1) = true)
    (hsharesRows : ∀ k ∈ shares, (mem.get k).hasRows r.N (level + 1) = true) :
    (∃ mem1 res, (NewMKDecryptor r sample).MergeDecMem mem (some c0) level shares
        = some (mem1, res) ∧
      res = mem.length ∧ mem1[c0]? = mem[c0]? ∧ (∀ k ∈ shares, mem1[k]? = mem[k]?) ∧
      ∀ a, a < mem.length → mem1[a]? = mem[a]?) ∧
    (∃ mem1 out, (NewMKDecryptor r sample).PartDecMem mem (some ct) level skValue
        = some (mem1, out) ∧
      out = mem.length ∧ mem1[ct]? = mem[ct]? ∧ mem1[skValue]? = mem[skValue]? ∧
      ∀ a, a < mem.length → mem1[a]? = mem[a]?) := by
  have hold : ∀ (out : Poly) (a : Nat), a < mem.length → (mem ++ [out])[a]? = mem[a]? :=
    fun out a ha => List.getElem?_append_left ha
  constructor
  · have hrows : ∀ k ∈ shares.map mem.get, k.hasRows r.N (level + 1) = true := by
      intro k hk
      obtain ⟨a, ha, rfl⟩ := List.mem_map.mp hk
      exact hsharesRows a ha
    obtain ⟨out, hout, _, _⟩ := MergeDec_some (NewMKDecryptor r sample) (mem.get c0) level
      (shares.map mem.get) hlevel hc0Rows hrows
    rw [MergeDecMem_eq _ mem c0 level shares hc0 hshares, hout]
    exact ⟨mem ++ [out], mem.length, rfl, rfl, hold out c0 hc0,
      fun k hk => hold out k (hshares k hk), hold out⟩
  · obtain ⟨_, _, out, _, _, hout, _, _⟩ := PartDec_some r sample (mem.get ct) level
      ⟨⟨mem.get skValue⟩, 0⟩ hlevel hctRows hskRows
    rw [PartDecMem_eq _ mem ct level skValue hct hsk, hout]
    exact ⟨mem ++ [out], mem.length, rfl, rfl, hold out ct hct, hold out skValue hsk, hold out⟩

/-- The sample memory at level 1: both calls append one polynomial and change nothing
else. -/
theorem MergeDec_PartDec_frame_witness :
    (1 < sampleRing.Modulus.length ∧ 0 < sampleMem.length ∧ 1 < sampleMem.length ∧
      2 < sampleMem.length ∧ (∀ k ∈ [3, 4], k < sampleMem.length) ∧
      (sampleMem.get 0).hasRows sampleRing.N (1 + 1) = true ∧
      (sampleMem.get 1).hasRows sampleRing.N (1 + 1) = true ∧
      (sampleMem.get 2).hasRows sampleRing.N (1 + 1) = true ∧
      ∀ k ∈ [3, 4], (sampleMem.get k).hasRows sampleRing.N (1 + 1) = true) ∧
    ((∃ mem1 res, (NewMKDecryptor sampleRing sampleNoise).MergeDecMem sampleMem (some 2) 1 [3, 4]
        = some (mem1, res) ∧
      res = sampleMem.length ∧ mem1[2]? = sampleMem[2]? ∧
      (∀ k ∈ [3, 4], mem1[k]? = sampleMem[k]?) ∧
      ∀ a, a < sampleMem.length → mem1[a]? = sampleMem[a]?) ∧
    (∃ mem1 out, (NewMKDecryptor sampleRing sampleNoise).PartDecMem sampleMem (some 0) 1 1
        = some (mem1, out) ∧
      out = sampleMem.length ∧ mem1[0]? = sampleMem[0]? ∧ mem1[1]? = sampleMem[1]? ∧
      ∀ a, a < sampleMem.length → mem1[a]? = sampleMem[a]?)) ∧
    (NewMKDecryptor sampleRing sampleNoise).MergeDecMem sampleMem (some 2) 1 [3, 4] =
      some (sampleMem ++ [⟨[[1, 0], [0, 0]]⟩], 5) ∧
    (NewMKDecryptor sampleRing sampleNoise).PartDecMem sampleMem (some 0) 1 1 =
      some (sampleMem ++ [⟨[[4, 0], [0, 5]]⟩], 5) :=
  ⟨⟨by decide, by decide, by decide, by decide, by decide, by decide, by decide, by decide,
      by decide⟩,
    MergeDec_PartDec_frame sampleRing sampleNoise sampleMem 0 1 2 1 [3, 4]
      (by decide) (by decide) (by decide) (by decide) (by decide) (by decide) (by decide)
      (by decide) (by decide),
    by decide, by decide⟩

end Lattigo
